import Mathlib

/-!
Verification development for the test-vector generation tool of the
fpga_cores repository (`run.py`).

The definitions below are a shallow embedding of the pure core of the
tool:

* the reference-file codec `generateAxiFileReaderTestFile` (byte-aligned
  and sub-byte packing paths, including the exact textual rendering of
  each reference line),
* the error-injection derivations used by `addAxiFileCompareTests`
  (single mismatch / double mismatch files),
* the width-converter configuration enumeration of
  `addAxiWidthConverterTests`,
* the default seed range drawn in `main`.

Machine integers of the source are modelled as `Nat` (all the arithmetic
in the source is on non-negative Python ints of unbounded width, so no
wrap-around modelling is needed); the seed is an `Int` because the CLI
default can be negative.
-/

/-- Hex rendering of a natural number, lowercase, no padding: Python
`"%x" % n` (and the digits of `f"{n:02x}"` before padding).  `0` renders
as `"0"`. -/
def hexStr (n : Nat) : String :=
  String.mk (Nat.toDigits 16 n)

/-- Python `f"{byte:02x}"`: minimal lowercase hex zero-padded on the left
to at least two digits. -/
def byteHex (b : Nat) : String :=
  String.mk (List.replicate (2 - (hexStr b).length) '0') ++ hexStr b

/-- Python `"%.px" % n`: minimal lowercase hex zero-padded on the left to
at least `p` digits (CPython prints `"0"` for `n = 0` even with
precision 0). -/
def precHex (p n : Nat) : String :=
  String.mk (List.replicate (p - (hexStr n).length) '0') ++ hexStr n

/-- One line of the reference file: the packed data word, the keep mask
(`none` on the sub-byte path, where the middle field of the line is left
empty) and the last-transfer flag. -/
structure TransferRecord where
  word : Nat
  keep : Option Nat
  last : Bool
deriving DecidableEq

/-- Numeric value of the accumulated window `line` (most recent byte at
the head of the list): the value denoted by `"".join(line)` in the
source, where each element contributes two hex digits, so the head byte
lands at the most-significant position. -/
def lineValue (line : List Nat) : Nat :=
  line.foldl (fun acc b => acc * 256 + b) 0

/-- The byte-aligned packing loop of `generateAxiFileReaderTestFile`
(`for i, byte in enumerate(test_data): ...` for `data_width >= 8`).
State: current window `line` (most recent byte first), the persistent
`tkeep` variable, and the position `i`; `n` is `len(test_data)`.  Each
completed window emits the `TransferRecord` together with the rendered
reference line (the source formats each byte with `f"{byte:02x}"` at
insertion time; here the bytes are kept as numbers and formatted at
emission, producing the same strings). -/
def baLoop (W n : Nat) : Nat → List Nat → Nat → List Nat →
    List (TransferRecord × String) × List Nat × Nat
  | _, line, tkeep, [] => ([], line, tkeep)
  | i, line, tkeep, byte :: rest =>
    let line1 := byte :: line
    let tlast : Bool := i == n - 1
    if 8 * (i + 1) % W = 0 then
      let tkeep1 := if tlast then 2 ^ line1.length - 1 else tkeep
      let entry : TransferRecord × String :=
        (⟨lineValue line1, some tkeep1, tlast⟩,
         String.intercalate ","
           [String.join (line1.map byteHex), precHex (W / 8 / 4) tkeep1,
            if tlast then "1" else "0"])
      let r := baLoop W n (i + 1) [] tkeep1 rest
      (entry :: r.1, r.2)
    else
      baLoop W n (i + 1) line1 tkeep rest

/-- Byte-aligned path of `generateAxiFileReaderTestFile`: run the loop,
then flush a trailing partial window (`if line:` in the source), which is
padded at the front with `"00"` bytes and always carries `last = 1` and
`keep = (1 << len(line)) - 1`. -/
def baEncode (W : Nat) (data : List Nat) : List (TransferRecord × String) :=
  let n := data.length
  let r := baLoop W n 0 [] 0 data
  if r.2.1.isEmpty then r.1
  else
    let line := r.2.1
    let tkeep := 2 ^ line.length - 1
    let padded := List.replicate (W / 8 - line.length) "00" ++ line.map byteHex
    r.1 ++ [(⟨lineValue line, some tkeep, true⟩,
             String.intercalate ","
               [String.join padded, precHex (W / 8 / 4) tkeep, "1"])]

/-- Digits of Python `bin(n)[2:]` for `n > 0`, most significant first,
as numbers; recursion bounded by a fuel argument (first argument), with
`fuel >= n` yielding the exact digits. -/
def natBitsAux : Nat → Nat → List Nat
  | 0, _ => []
  | fuel + 1, n => if n = 0 then [] else natBitsAux fuel (n / 2) ++ [n % 2]

/-- Digit list of Python `bin(byte)[2:]`: minimal binary, most
significant first; `bin(0)[2:]` is `"0"`. -/
def pyBinBits (n : Nat) : List Nat :=
  if n = 0 then [0] else natBitsAux n n

/-- Contribution of one input byte to the flattened bit string of the
sub-byte path: the reversed `bin` digits (least significant bit first),
padded on the right with zero bits to 8 positions. -/
def byteContribution (byte : Nat) : List Nat :=
  let littleEndianWord := (pyBinBits byte).reverse
  littleEndianWord ++ List.replicate (8 - littleEndianWord.length) 0

/-- The flattened bit string of the sub-byte path
(`flattened_bin_data`), accumulated byte by byte. -/
def flattenBits (data : List Nat) : List Nat :=
  data.foldl (fun acc byte => acc ++ byteContribution byte) []

/-- Python `int(s, 2)` on a binary digit string, most significant digit
first. -/
def bitsToNat (bits : List Nat) : Nat :=
  bits.foldl (fun acc b => acc * 2 + b) 0

/-- The sub-byte slicing loop (`while flattened_bin_data: ...`): take
`data_width` bits as one word, with `last` set on the slice that
exhausts the bit string; the keep field of the rendered line is left
empty.  The loop is bounded by a fuel argument; since every iteration
consumes at least one bit (the tool only uses `data_width >= 1`),
`fuel = bits.length` reproduces the loop exactly. -/
def sliceAux (W : Nat) : Nat → List Nat → List (TransferRecord × String)
  | 0, _ => []
  | _, [] => []
  | fuel + 1, bits@(_ :: _) =>
    let word := bitsToNat (bits.take W)
    let rest := bits.drop W
    let tlast : Bool := rest.isEmpty
    (⟨word, none, tlast⟩,
     String.intercalate "," [hexStr word, "", if tlast then "1" else "0"]) ::
      sliceAux W fuel rest

/-- Sub-byte path of `generateAxiFileReaderTestFile`. -/
def sliceBits (W : Nat) (bits : List Nat) : List (TransferRecord × String) :=
  sliceAux W bits.length bits

/-- All (record, rendered line) pairs produced by
`generateAxiFileReaderTestFile` for byte sequence `data` and data-path
width `W` (`if data_width >= 8: ... else: ...`). -/
def refPairs (W : Nat) (data : List Nat) : List (TransferRecord × String) :=
  if 8 ≤ W then baEncode W data else sliceBits W (flattenBits data)

/-- The `TransferRecord`s of the reference log. -/
def encodeRecords (W : Nat) (data : List Nat) : List TransferRecord :=
  (refPairs W data).map Prod.fst

/-- The rendered lines of the reference log. -/
def refLines (W : Nat) (data : List Nat) : List String :=
  (refPairs W data).map Prod.snd

/-- The full text written to the reference file:
`fd.write("\n".join(lines)); fd.write("\n")`. -/
def refFileContent (W : Nat) (data : List Nat) : String :=
  String.intercalate "\n" (refLines W data) ++ "\n"

/-- The bytes written to the raw test file:
`struct.pack("<" + length * "B", *test_data)` writes the byte sequence
literally. -/
def rawFileBytes (data : List Nat) : List Nat := data

/-- The pair of artifacts produced by `generateAxiFileReaderTestFile`
for a given byte sequence and data width: raw file bytes and reference
file text. -/
def generateAxiFileReaderTestFile (data : List Nat) (W : Nat) :
    List Nat × String :=
  (rawFileBytes data, refFileContent W data)

/-- The `tdata_single_error_file` derivation of `addAxiFileCompareTests`:
`ref_data[:7] + [ref_data[8]] + ref_data[8:]` on the newline-split
reference data ("Skip one, duplicate another so the size is the same").
Out-of-range indexing (base shorter than 9 lines) is an error in the
source; `getD` with the empty string stands in for it here. -/
def singleMismatch (l : List String) : List String :=
  l.take 7 ++ [l.getD 8 ""] ++ l.drop 8

/-- The `tdata_two_errors_file` derivation of `addAxiFileCompareTests`:
`ref_data[:7] + [ref_data[8], ref_data[8]] + ref_data[9:16]
 + [ref_data[17]] + ref_data[17:]`. -/
def doubleMismatch (l : List String) : List String :=
  l.take 7 ++ [l.getD 8 "", l.getD 8 ""] ++ (l.drop 9).take 7 ++
    [l.getD 17 ""] ++ l.drop 17

/-- Inclusive lower bound of `random.randint(-1 << 31, 1 << 31)`, the
default of the `--seed` CLI argument in `main`. -/
def defaultSeedLo : Int := -(2 ^ 31)

/-- Inclusive upper bound of `random.randint(-1 << 31, 1 << 31)`
(`randint` includes both endpoints). -/
def defaultSeedHi : Int := 2 ^ 31

/-- The values the process-wide seed can take when no `--seed` is
supplied on the command line. -/
def defaultSeedPossible (s : Int) : Prop :=
  defaultSeedLo ≤ s ∧ s ≤ defaultSeedHi

/-- The signed 32-bit range the spec asserts for the seed. -/
def claimedSeedRange (s : Int) : Prop :=
  -(2 ^ 31) ≤ s ∧ s ≤ 2 ^ 31 - 1

/-- Input width domain of `addAxiWidthConverterTests` (the source
iterates a Python set; the enumeration order is irrelevant to the
claims, which are about membership and multiplicity). -/
def converterInputWidths : List Nat := [1, 8, 24, 32, 128]

/-- Output width domain of `addAxiWidthConverterTests`. -/
def converterOutputWidths : List Nat := [1, 3, 8, 24, 32, 128]

/-- The `(INPUT_DATA_WIDTH, OUTPUT_DATA_WIDTH)` pairs of every
configuration added by `addAxiWidthConverterTests`: the explicit
`same_widths` baseline `(32, 32)` first, then the loop over the two
width sets, with the output set excluding the input width
(`- {input_data_width}`) and pairs with `output >= input` skipped by
`continue`. -/
def axiWidthConverterConfigs : List (Nat × Nat) :=
  (32, 32) ::
    converterInputWidths.flatMap fun i =>
      ((converterOutputWidths.filter (fun o => o ≠ i)).filter
          (fun o => ¬ i ≤ o)).map
        (fun o => (i, o))

/-- Structural characterization of the byte-aligned encoder used by the
proofs: the records of window after window of `k = W / 8` bytes, the
final (possibly partial) window carrying `last = true` and the keep mask
`2 ^ count - 1`; all earlier windows carry `keep = 0` because the
source's `tkeep` variable is only assigned on the last transfer. -/
def chunkRecs (k : Nat) (data : List Nat) : List TransferRecord :=
  if k = 0 then []
  else if data = [] then []
  else if data.length ≤ k then
    [⟨lineValue data.reverse, some (2 ^ data.length - 1), true⟩]
  else
    ⟨lineValue (data.take k).reverse, some 0, false⟩ :: chunkRecs k (data.drop k)
termination_by data.length
decreasing_by simp [List.length_drop]; omega

/-- The records of the complete windows only (what the byte-aligned loop
emits before the trailing-partial-window flush). -/
def fullChunks (k : Nat) (data : List Nat) : List TransferRecord :=
  if k = 0 then []
  else if data.length < k then []
  else if data.length = k then
    [⟨lineValue data.reverse, some (2 ^ k - 1), true⟩]
  else
    ⟨lineValue (data.take k).reverse, some 0, false⟩ :: fullChunks k (data.drop k)
termination_by data.length
decreasing_by simp [List.length_drop]; omega

/-- The bytes of the trailing partial window (empty when the byte count
divides evenly into windows of `k`). -/
def leftoverBytes (k : Nat) (data : List Nat) : List Nat :=
  if data.length % k = 0 then [] else data.drop (k * (data.length / k))

/-- The `count` least significant base-256 digits of `word`, least
significant first: the byte lanes of one transfer in arrival order. -/
def wordBytes (word : Nat) : Nat → List Nat
  | 0 => []
  | count + 1 => word % 256 :: wordBytes (word / 256) count

/-- Number of valid byte lanes encoded by a keep mask of the form
`2 ^ m - 1`: counts the set low bits (fuel-bounded binary recursion). -/
def keepCountAux : Nat → Nat → Nat
  | 0, _ => 0
  | fuel + 1, m => if m = 0 then 0 else keepCountAux fuel (m / 2) + m % 2

/-- Number of valid byte lanes of a keep mask. -/
def keepCount (m : Nat) : Nat := keepCountAux m m

/-- Modelled from the spec: the byte-aligned decoder contract (§4.1
"Guarantee" and §8 property 1) that the downstream VHDL checker — not
part of the Python source — must implement.  A non-last record
contributes all `k` byte lanes of its word, least significant (earliest
arrived) first; the last record contributes only the lanes its keep mask
marks valid. -/
def decodeRecord (k : Nat) (r : TransferRecord) : List Nat :=
  if r.last then wordBytes r.word (keepCount (r.keep.getD 0))
  else wordBytes r.word k

/-- Modelled from the spec: decoding a whole reference log back into the
byte sequence (§8 property 1). -/
def decodeLog (k : Nat) (recs : List TransferRecord) : List Nat :=
  (recs.map (decodeRecord k)).flatten

/-! ### Arithmetic helpers -/

/-- Stepping the byte index inside a window: the window position grows
by one as long as the window is not yet full. -/
theorem mod_succ_lt {i k l : Nat} (h : i % k = l) (hlt : l + 1 < k) :
    (i + 1) % k = l + 1 := by
  have hk1 : (1 : Nat) % k = 1 := Nat.mod_eq_of_lt (by omega)
  conv_lhs => rw [Nat.add_mod, h, hk1]
  exact Nat.mod_eq_of_lt hlt

/-- Stepping the byte index onto a window boundary. -/
theorem mod_succ_boundary {i k l : Nat} (h : i % k = l) (hk : l + 1 = k) :
    (i + 1) % k = 0 := by
  by_cases hk1 : k = 1
  · subst hk1; simp [Nat.mod_one]
  · have h1 : (1 : Nat) % k = 1 := Nat.mod_eq_of_lt (by omega)
    conv_lhs => rw [Nat.add_mod, h, h1, hk]
    exact Nat.mod_self k

/-- The source's window-boundary test `8 * (i + 1) % data_width == 0`
for a byte-aligned width `8 * k` is the same as `(i + 1) % k == 0`. -/
theorem ba_boundary {i k : Nat} : 8 * (i + 1) % (8 * k) = 0 ↔ (i + 1) % k = 0 := by
  rw [Nat.mul_mod_mul_left]
  omega

/-- Ceiling division of `m` by `k` when `m` fits into one window. -/
theorem ceilDiv_base {k m : Nat} (h1 : 1 ≤ m) (h2 : m ≤ k) :
    (m + k - 1) / k = 1 := by
  refine Nat.div_eq_of_lt_le ?_ ?_ <;> omega

/-- Ceiling division of `m` by `k` peels off one full window. -/
theorem ceilDiv_step {k m : Nat} (hk : 1 ≤ k) (h : k < m) :
    (m + k - 1) / k = (m - k + k - 1) / k + 1 := by
  have he : m + k - 1 = (m - k + k - 1) + k := by omega
  rw [he, Nat.add_div_right _ (by omega)]

/-- Ceiling division is invariant under scaling numerator and
denominator by 8 (bits per byte). -/
theorem ceilDiv_scale8 {n k : Nat} (hk : 1 ≤ k) :
    (n * 8 + 8 * k - 1) / (8 * k) = (n + k - 1) / k := by
  set q := (n + k - 1) / k with hq
  have hqr := Nat.div_add_mod (n + k - 1) k
  set r := (n + k - 1) % k with hr
  have hrk : r < k := Nat.mod_lt _ (by omega)
  obtain ⟨P, hP⟩ : ∃ P, k * q = P := ⟨_, rfl⟩
  have h1 : q * (8 * k) = 8 * P := by rw [← hP]; ring
  have h2 : (q + 1) * (8 * k) = 8 * P + 8 * k := by rw [← hP]; ring
  rw [hP] at hqr
  refine Nat.div_eq_of_lt_le ?_ ?_
  · rw [h1]; omega
  · rw [h2]; omega

/-- A byte-aligned width decomposes as `8 * (W / 8)` with a positive
window byte count. -/
theorem width_decompose {W : Nat} (hW : W % 8 = 0) (h8 : 8 ≤ W) :
    W = 8 * (W / 8) ∧ 0 < W / 8 := by
  constructor
  · exact (Nat.mul_div_cancel' (Nat.dvd_of_mod_eq_zero hW)).symm
  · exact Nat.div_pos h8 (by omega)

/-! ### Characterizing the byte-aligned loop -/

/-- Running the loop over bytes that do not reach the window boundary:
they accumulate (most recent first) and nothing is emitted. -/
theorem baLoop_noBoundary (k n : Nat) :
    ∀ (data : List Nat) (i : Nat) (line : List Nat) (tk : Nat),
      i % k = line.length → line.length + data.length < k →
      baLoop (8 * k) n i line tk data = ([], data.reverse ++ line, tk) := by
  intro data
  induction data with
  | nil => intro i line tk hinv hlen; simp [baLoop]
  | cons b rest ih =>
    intro i line tk hinv hlen
    have hcond : ¬ (8 * (i + 1) % (8 * k) = 0) := by
      rw [ba_boundary]
      rw [mod_succ_lt hinv (by simp at hlen; omega)]
      omega
    simp only [baLoop, if_neg hcond]
    rw [ih (i + 1) (b :: line) tk
        (by rw [mod_succ_lt hinv (by simp at hlen; omega)]; simp)
        (by simp at hlen ⊢; omega)]
    simp

/-- Running the loop over exactly one window-filling chunk `c`: the
window closes, one record is emitted, and the loop restarts with an
empty window at index `i + c.length`.  The `tkeep` variable is assigned
only when the chunk contains the last byte of the whole input. -/
theorem baLoop_fillChunk (k n : Nat) :
    ∀ (c : List Nat) (i : Nat) (line : List Nat) (tk : Nat) (rest : List Nat),
      c ≠ [] → i % k = line.length → line.length + c.length = k →
      baLoop (8 * k) n i line tk (c ++ rest) =
        (let tlast : Bool := i + c.length - 1 == n - 1
         let tk1 := if tlast then 2 ^ k - 1 else tk
         let r := baLoop (8 * k) n (i + c.length) [] tk1 rest
         ((⟨lineValue (c.reverse ++ line), some tk1, tlast⟩,
           String.intercalate ","
             [String.join ((c.reverse ++ line).map byteHex),
              precHex (8 * k / 8 / 4) tk1, if tlast then "1" else "0"]) :: r.1,
          r.2)) := by
  intro c
  induction c with
  | nil => intro i line tk rest hne; exact absurd rfl hne
  | cons b c2 ih =>
    intro i line tk rest _ hinv hlen
    by_cases hc2 : c2 = []
    · subst hc2
      have hk2 : line.length + 1 = k := by simpa using hlen
      have hb : (i + 1) % k = 0 := mod_succ_boundary hinv hk2
      have hcond : 8 * (i + 1) % (8 * k) = 0 := ba_boundary.mpr hb
      simp only [List.cons_append, List.nil_append, baLoop, if_pos hcond]
      simp only [List.length_cons, hk2]
      simp [List.reverse_cons]
    · have hlt : line.length + 1 < k := by
        have : c2.length ≥ 1 := by
          cases c2 with
          | nil => exact absurd rfl hc2
          | cons x xs => simp
        simp only [List.length_cons] at hlen
        omega
      have hstep : (i + 1) % k = line.length + 1 := mod_succ_lt hinv hlt
      have hcond : ¬ (8 * (i + 1) % (8 * k) = 0) := by
        rw [ba_boundary, hstep]; omega
      simp only [List.cons_append, baLoop, if_neg hcond, List.append_eq]
      rw [ih (i + 1) (b :: line) tk rest hc2 (by rw [hstep]; simp)
          (by simp only [List.length_cons] at hlen ⊢; omega)]
      have e1 : i + 1 + c2.length = i + (b :: c2).length := by simp; omega
      simp only [List.reverse_cons, List.append_assoc, List.length_cons, e1]
      simp [Nat.add_comm]

/-- The trailing partial window is unchanged by peeling one full window
off the front. -/
theorem leftoverBytes_drop {k : Nat} (hk : 0 < k) (data : List Nat)
    (h : k < data.length) :
    leftoverBytes k data = leftoverBytes k (data.drop k) := by
  unfold leftoverBytes
  have hmod : data.length % k = (data.length - k) % k :=
    Nat.mod_eq_sub_mod (le_of_lt h)
  rw [List.length_drop, ← hmod]
  by_cases h0 : data.length % k = 0
  · simp [h0]
  · rw [if_neg h0, if_neg h0]
    have hdiv : data.length / k = (data.length - k) / k + 1 :=
      Nat.div_eq_sub_div hk (le_of_lt h)
    rw [hdiv, List.drop_drop]
    congr 1
    ring

/-- Full characterization of the byte-aligned loop started at a window
boundary with a fresh window and cleared `tkeep`: the emitted records
are the full-window records, and the final `line` holds the trailing
partial window reversed. -/
theorem baLoop_chunks (k n : Nat) (hk : 0 < k) :
    ∀ (m : Nat) (data : List Nat) (i : Nat), data.length = m → i % k = 0 →
      n = i + data.length →
      (baLoop (8 * k) n i [] 0 data).1.map Prod.fst = fullChunks k data ∧
      (baLoop (8 * k) n i [] 0 data).2.1 = (leftoverBytes k data).reverse := by
  intro m
  induction m using Nat.strong_induction_on with
  | _ m ih =>
    intro data i hlen hi hn
    by_cases hd : data = []
    · subst hd
      unfold fullChunks leftoverBytes
      simp [baLoop, Nat.pos_iff_ne_zero.mp hk, hk]
    · have hpos : 0 < data.length := List.length_pos.mpr hd
      rcases Nat.lt_trichotomy data.length k with hlt | heq | hgt
      · rw [baLoop_noBoundary k n data i [] 0 (by simpa using hi) (by simpa using hlt)]
        constructor
        · unfold fullChunks
          simp [Nat.pos_iff_ne_zero.mp hk, hlt]
        · unfold leftoverBytes
          rw [if_neg (by rw [Nat.mod_eq_of_lt hlt]; omega)]
          rw [Nat.div_eq_of_lt hlt]
          simp
      · have hfc := baLoop_fillChunk k n data i [] 0 [] hd (by simpa using hi)
          (by simpa using heq)
        simp only [List.append_nil] at hfc
        rw [hfc]
        have htl : i + data.length - 1 = n - 1 := by omega
        dsimp only
        simp only [htl, beq_self_eq_true]
        constructor
        · have hfull : fullChunks k data =
              [⟨lineValue data.reverse, some (2 ^ k - 1), true⟩] := by
            unfold fullChunks
            rw [if_neg (Nat.pos_iff_ne_zero.mp hk), if_neg (by omega), if_pos heq]
          rw [hfull]
          simp [baLoop]
        · have hleft : leftoverBytes k data = [] := by
            unfold leftoverBytes
            rw [if_pos (by rw [heq]; exact Nat.mod_self k)]
          rw [hleft]
          simp [baLoop]
      · have hsplit : data = data.take k ++ data.drop k := (List.take_append_drop k data).symm
        have htk : (data.take k).length = k := by
          rw [List.length_take]; omega
        have htkne : data.take k ≠ [] := by
          intro hc; rw [hc] at htk; simp at htk; omega
        have hfc := baLoop_fillChunk k n (data.take k) i [] 0 (data.drop k) htkne
          (by simpa using hi) (by simpa using htk)
        rw [← hsplit] at hfc
        rw [hfc]
        dsimp only
        simp only [htk]
        have htl : (i + k - 1 == n - 1) = false := beq_eq_false_iff_ne.mpr (by omega)
        simp only [htl, Bool.false_eq_true, if_false]
        have hdl : (data.drop k).length = data.length - k := List.length_drop k data
        have hik : (i + k) % k = 0 := by rw [Nat.add_mod_right]; exact hi
        have hnn : n = i + k + (data.drop k).length := by rw [hdl]; omega
        have hrec := ih (data.length - k) (by omega) (data.drop k) (i + k) hdl hik hnn
        constructor
        · have hfull : fullChunks k data =
              ⟨lineValue (data.take k).reverse, some 0, false⟩ ::
                fullChunks k (data.drop k) := by
            conv_lhs => unfold fullChunks
            rw [if_neg (Nat.pos_iff_ne_zero.mp hk), if_neg (by omega), if_neg (by omega)]
          rw [hfull]
          simp only [List.map_cons]
          rw [hrec.1]
          simp
        · rw [hrec.2, leftoverBytes_drop hk data hgt]

/-- `chunkRecs` is the full-window records followed by the flushed
trailing partial window. -/
theorem chunkRecs_assembled (k : Nat) (hk : 0 < k) :
    ∀ (m : Nat) (data : List Nat), data.length = m →
      chunkRecs k data =
        fullChunks k data ++
          (if leftoverBytes k data = [] then []
           else [⟨lineValue (leftoverBytes k data).reverse,
                  some (2 ^ (leftoverBytes k data).length - 1), true⟩]) := by
  intro m
  induction m using Nat.strong_induction_on with
  | _ m ih =>
    intro data hlen
    have hk0 := Nat.pos_iff_ne_zero.mp hk
    by_cases hd : data = []
    · subst hd
      unfold chunkRecs fullChunks leftoverBytes
      simp [hk0]
    · have hpos : 0 < data.length := List.length_pos.mpr hd
      rcases Nat.lt_trichotomy data.length k with hlt | heq | hgt
      · have hleft : leftoverBytes k data = data := by
          unfold leftoverBytes
          rw [if_neg (by rw [Nat.mod_eq_of_lt hlt]; omega), Nat.div_eq_of_lt hlt]
          simp
        have hfull : fullChunks k data = [] := by
          unfold fullChunks
          rw [if_neg hk0, if_pos hlt]
        have hrecs : chunkRecs k data =
            [⟨lineValue data.reverse, some (2 ^ data.length - 1), true⟩] := by
          unfold chunkRecs
          rw [if_neg hk0, if_neg hd, if_pos (le_of_lt hlt)]
        rw [hrecs, hfull, hleft, if_neg hd]
        simp
      · have hleft : leftoverBytes k data = [] := by
          unfold leftoverBytes
          rw [if_pos (by rw [heq]; exact Nat.mod_self k)]
        have hfull : fullChunks k data =
            [⟨lineValue data.reverse, some (2 ^ k - 1), true⟩] := by
          unfold fullChunks
          rw [if_neg hk0, if_neg (by omega), if_pos heq]
        have hrecs : chunkRecs k data =
            [⟨lineValue data.reverse, some (2 ^ data.length - 1), true⟩] := by
          unfold chunkRecs
          rw [if_neg hk0, if_neg hd, if_pos (le_of_eq heq)]
        rw [hrecs, hfull, hleft, heq]
        simp
      · have hstep : chunkRecs k data =
            ⟨lineValue (data.take k).reverse, some 0, false⟩ :: chunkRecs k (data.drop k) := by
          conv_lhs => unfold chunkRecs
          rw [if_neg hk0, if_neg hd, if_neg (by omega)]
        have hfull : fullChunks k data =
            ⟨lineValue (data.take k).reverse, some 0, false⟩ :: fullChunks k (data.drop k) := by
          conv_lhs => unfold fullChunks
          rw [if_neg hk0, if_neg (by omega), if_neg (by omega)]
        rw [hstep, hfull, ih (data.length - k) (by omega) (data.drop k) (by rw [List.length_drop]),
            leftoverBytes_drop hk data hgt]
        simp

/-- The byte-aligned encoder records are exactly the window-by-window
records. -/
theorem encodeRecords_eq_chunkRecs {k : Nat} (hk : 0 < k) (data : List Nat) :
    encodeRecords (8 * k) data = chunkRecs k data := by
  obtain ⟨h1, h2⟩ := baLoop_chunks k data.length hk data.length data 0 rfl (by simp) (by simp)
  unfold encodeRecords refPairs
  rw [if_pos (by omega : 8 ≤ 8 * k)]
  rw [chunkRecs_assembled k hk data.length data rfl]
  by_cases hl : leftoverBytes k data = []
  · have hline : (baLoop (8 * k) data.length 0 [] 0 data).2.1 = [] := by
      rw [h2, hl, List.reverse_nil]
    simp [baEncode, hline, h1, hl]
  · have hline : (baLoop (8 * k) data.length 0 [] 0 data).2.1 ≠ [] := by
      rw [h2]; simpa using hl
    simp only [baEncode, List.isEmpty_iff, h2, List.reverse_reverse]
    rw [if_neg (by simpa using hl), if_neg hl]
    simp [h1, h2]

/-- `chunkRecs` of a nonempty byte list is nonempty. -/
theorem chunkRecs_ne_nil {k : Nat} (hk : 0 < k) {data : List Nat} (hd : data ≠ []) :
    chunkRecs k data ≠ [] := by
  unfold chunkRecs
  rw [if_neg (Nat.pos_iff_ne_zero.mp hk), if_neg hd]
  by_cases hle : data.length ≤ k
  · rw [if_pos hle]; simp
  · rw [if_neg hle]; simp

/-- Window count: one record per started window of `k` bytes. -/
theorem chunkRecs_length {k : Nat} (hk : 0 < k) :
    ∀ (m : Nat) (data : List Nat), data.length = m → data ≠ [] →
      (chunkRecs k data).length = (data.length + k - 1) / k := by
  intro m
  induction m using Nat.strong_induction_on with
  | _ m ih =>
    intro data hlen hd
    have hk0 := Nat.pos_iff_ne_zero.mp hk
    have hpos : 0 < data.length := List.length_pos.mpr hd
    by_cases hle : data.length ≤ k
    · have hrecs : chunkRecs k data =
          [⟨lineValue data.reverse, some (2 ^ data.length - 1), true⟩] := by
        unfold chunkRecs
        rw [if_neg hk0, if_neg hd, if_pos hle]
      rw [hrecs, ceilDiv_base hpos hle]
      rfl
    · have hrecs : chunkRecs k data =
          ⟨lineValue (data.take k).reverse, some 0, false⟩ :: chunkRecs k (data.drop k) := by
        conv_lhs => unfold chunkRecs
        rw [if_neg hk0, if_neg hd, if_neg hle]
      have hdl : (data.drop k).length = data.length - k := List.length_drop k data
      have hdne : data.drop k ≠ [] := by
        rw [← List.length_pos, hdl]; omega
      rw [hrecs, List.length_cons,
          ih (data.length - k) (by omega) (data.drop k) hdl hdne, hdl]
      exact (ceilDiv_step hk (by omega)).symm

/-- Exactly the final record carries `last = true`. -/
theorem chunkRecs_lastFlags {k : Nat} (hk : 0 < k) :
    ∀ (m : Nat) (data : List Nat), data.length = m → data ≠ [] →
      (chunkRecs k data).map TransferRecord.last =
        List.replicate ((chunkRecs k data).length - 1) false ++ [true] := by
  intro m
  induction m using Nat.strong_induction_on with
  | _ m ih =>
    intro data hlen hd
    have hk0 := Nat.pos_iff_ne_zero.mp hk
    by_cases hle : data.length ≤ k
    · have hrecs : chunkRecs k data =
          [⟨lineValue data.reverse, some (2 ^ data.length - 1), true⟩] := by
        unfold chunkRecs
        rw [if_neg hk0, if_neg hd, if_pos hle]
      rw [hrecs]
      simp
    · have hrecs : chunkRecs k data =
          ⟨lineValue (data.take k).reverse, some 0, false⟩ :: chunkRecs k (data.drop k) := by
        conv_lhs => unfold chunkRecs
        rw [if_neg hk0, if_neg hd, if_neg hle]
      have hdl : (data.drop k).length = data.length - k := List.length_drop k data
      have hdne : data.drop k ≠ [] := by
        rw [← List.length_pos, hdl]; omega
      have htne : chunkRecs k (data.drop k) ≠ [] := chunkRecs_ne_nil hk hdne
      have htpos : 0 < (chunkRecs k (data.drop k)).length := List.length_pos.mpr htne
      rw [hrecs, List.map_cons, ih (data.length - k) (by omega) (data.drop k) hdl hdne,
          List.length_cons]
      have hrep : List.replicate ((chunkRecs k (data.drop k)).length + 1 - 1) false =
          false :: List.replicate ((chunkRecs k (data.drop k)).length - 1) false := by
        have : (chunkRecs k (data.drop k)).length + 1 - 1 =
            ((chunkRecs k (data.drop k)).length - 1) + 1 := by omega
        rw [this, List.replicate_succ]
      rw [hrep]
      simp

/-- Every record before the last carries the cleared keep mask `0`: the
source's `tkeep` variable is only ever assigned on the final transfer. -/
theorem chunkRecs_keep_init {k : Nat} (hk : 0 < k) :
    ∀ (m : Nat) (data : List Nat), data.length = m →
      ∀ r ∈ (chunkRecs k data).dropLast, r.keep = some 0 := by
  intro m
  induction m using Nat.strong_induction_on with
  | _ m ih =>
    intro data hlen r hr
    have hk0 := Nat.pos_iff_ne_zero.mp hk
    by_cases hd : data = []
    · subst hd
      have hrecs : chunkRecs k ([] : List Nat) = [] := by
        unfold chunkRecs
        rw [if_neg hk0, if_pos rfl]
      rw [hrecs] at hr
      simp at hr
    · by_cases hle : data.length ≤ k
      · have hrecs : chunkRecs k data =
            [⟨lineValue data.reverse, some (2 ^ data.length - 1), true⟩] := by
          unfold chunkRecs
          rw [if_neg hk0, if_neg hd, if_pos hle]
        rw [hrecs] at hr
        simp at hr
      · have hrecs : chunkRecs k data =
            ⟨lineValue (data.take k).reverse, some 0, false⟩ :: chunkRecs k (data.drop k) := by
          conv_lhs => unfold chunkRecs
          rw [if_neg hk0, if_neg hd, if_neg hle]
        have hdl : (data.drop k).length = data.length - k := List.length_drop k data
        have hdne : data.drop k ≠ [] := by
          rw [← List.length_pos, hdl]
          have : 0 < data.length := List.length_pos.mpr hd
          omega
        have htne : chunkRecs k (data.drop k) ≠ [] := chunkRecs_ne_nil hk hdne
        rw [hrecs, List.dropLast_cons_of_ne_nil htne] at hr
        rcases List.mem_cons.mp hr with h | h
        · subst h; rfl
        · exact ih (data.length - k) (by have := List.length_pos.mpr hd; omega)
            (data.drop k) hdl r h

/-- The final record of a nonempty byte-aligned log carries the
all-ones keep mask for the bytes of its (possibly partial) final
window: `k` lanes when the byte count divides evenly into windows,
`data.length % k` lanes otherwise. -/
theorem chunkRecs_last_keep {k : Nat} (hk : 0 < k) :
    ∀ (m : Nat) (data : List Nat), data.length = m → data ≠ [] →
      ∃ front lastRec, chunkRecs k data = front ++ [lastRec] ∧
        lastRec.keep =
          some (2 ^ (if data.length % k = 0 then k else data.length % k) - 1) ∧
        lastRec.last = true := by
  intro m
  induction m using Nat.strong_induction_on with
  | _ m ih =>
    intro data hlen hd
    have hk0 := Nat.pos_iff_ne_zero.mp hk
    have hpos : 0 < data.length := List.length_pos.mpr hd
    by_cases hle : data.length ≤ k
    · have hrecs : chunkRecs k data =
          [⟨lineValue data.reverse, some (2 ^ data.length - 1), true⟩] := by
        unfold chunkRecs
        rw [if_neg hk0, if_neg hd, if_pos hle]
      refine ⟨[], ⟨lineValue data.reverse, some (2 ^ data.length - 1), true⟩,
        by rw [hrecs]; rfl, ?_, rfl⟩
      rcases Nat.lt_or_ge data.length k with hlt | hge
      · rw [if_neg (by rw [Nat.mod_eq_of_lt hlt]; omega), Nat.mod_eq_of_lt hlt]
      · have heq : data.length = k := by omega
        rw [heq, if_pos (Nat.mod_self k)]
    · have hrecs : chunkRecs k data =
          ⟨lineValue (data.take k).reverse, some 0, false⟩ :: chunkRecs k (data.drop k) := by
        conv_lhs => unfold chunkRecs
        rw [if_neg hk0, if_neg hd, if_neg hle]
      have hdl : (data.drop k).length = data.length - k := List.length_drop k data
      have hdne : data.drop k ≠ [] := by
        rw [← List.length_pos, hdl]; omega
      obtain ⟨front, lastRec, hfr, hkeep, hlast⟩ :=
        ih (data.length - k) (by omega) (data.drop k) hdl hdne
      have hmod : (data.drop k).length % k = data.length % k := by
        rw [hdl]
        exact (Nat.mod_eq_sub_mod (by omega)).symm
      rw [hmod] at hkeep
      exact ⟨⟨lineValue (data.take k).reverse, some 0, false⟩ :: front, lastRec,
        by rw [hrecs, hfr]; rfl, hkeep, hlast⟩

/-- Peeling the most recent byte off an accumulated window. -/
theorem lineValue_reverse_cons (b : Nat) (c : List Nat) :
    lineValue ((b :: c).reverse) = lineValue c.reverse * 256 + b := by
  simp [lineValue, List.foldl_append]

/-- Decoding one packed word recovers the window bytes in arrival
order. -/
theorem wordBytes_lineValue :
    ∀ (c : List Nat), (∀ b ∈ c, b < 256) →
      wordBytes (lineValue c.reverse) c.length = c := by
  intro c
  induction c with
  | nil => intro _; simp [lineValue, wordBytes]
  | cons b c ih =>
    intro hb
    have hblt : b < 256 := hb b (by simp)
    rw [lineValue_reverse_cons, List.length_cons]
    have hv : lineValue c.reverse * 256 + b = 256 * lineValue c.reverse + b := by ring
    rw [hv]
    unfold wordBytes
    rw [Nat.mul_add_mod, Nat.mod_eq_of_lt hblt,
        Nat.mul_add_div (by omega), Nat.div_eq_of_lt hblt]
    simp only [Nat.add_zero]
    rw [ih (fun x hx => hb x (by simp [hx]))]

/-- The fuel argument of `keepCountAux` is irrelevant once it covers the
argument. -/
theorem keepCountAux_congr :
    ∀ (f1 f2 m : Nat), m ≤ f1 → m ≤ f2 → keepCountAux f1 m = keepCountAux f2 m := by
  intro f1
  induction f1 with
  | zero =>
    intro f2 m h1 _
    have : m = 0 := by omega
    subst this
    cases f2 <;> simp [keepCountAux]
  | succ f1 ih =>
    intro f2 m h1 h2
    cases f2 with
    | zero =>
      have : m = 0 := by omega
      subst this
      simp [keepCountAux]
    | succ f2 =>
      by_cases hm : m = 0
      · subst hm; simp [keepCountAux]
      · simp only [keepCountAux, if_neg hm]
        rw [ih f2 (m / 2) (by omega) (by omega)]

/-- An all-ones keep mask `2 ^ c - 1` encodes `c` valid byte lanes. -/
theorem keepCount_two_pow : ∀ (c : Nat), keepCount (2 ^ c - 1) = c := by
  intro c
  induction c with
  | zero => rfl
  | succ c ih =>
    have hE : 1 ≤ 2 ^ c := Nat.one_le_two_pow
    have h2 : 2 ^ (c + 1) = 2 * 2 ^ c := by rw [pow_succ]; ring
    have hm1 : 2 ^ (c + 1) - 1 ≠ 0 := by omega
    obtain ⟨m, hm⟩ : ∃ m, 2 ^ (c + 1) - 1 = m + 1 := ⟨2 ^ (c + 1) - 2, by omega⟩
    unfold keepCount
    rw [hm]
    simp only [keepCountAux, if_neg (by omega : ¬ m + 1 = 0)]
    have hdiv : (m + 1) / 2 = 2 ^ c - 1 := by omega
    have hmod : (m + 1) % 2 = 1 := by omega
    rw [hdiv, hmod, keepCountAux_congr m (2 ^ c - 1) (2 ^ c - 1) (by omega) (by omega)]
    rw [show keepCountAux (2 ^ c - 1) (2 ^ c - 1) = keepCount (2 ^ c - 1) from rfl, ih]

/-- Decoding the window-by-window records recovers the byte sequence. -/
theorem chunkRecs_roundTrip {k : Nat} (hk : 0 < k) :
    ∀ (m : Nat) (data : List Nat), data.length = m → data ≠ [] →
      (∀ b ∈ data, b < 256) → decodeLog k (chunkRecs k data) = data := by
  intro m
  induction m using Nat.strong_induction_on with
  | _ m ih =>
    intro data hlen hd hb
    have hk0 := Nat.pos_iff_ne_zero.mp hk
    have hpos : 0 < data.length := List.length_pos.mpr hd
    by_cases hle : data.length ≤ k
    · have hrecs : chunkRecs k data =
          [⟨lineValue data.reverse, some (2 ^ data.length - 1), true⟩] := by
        unfold chunkRecs
        rw [if_neg hk0, if_neg hd, if_pos hle]
      rw [hrecs]
      simp only [decodeLog, List.map_cons, List.map_nil, List.flatten_cons,
        List.flatten_nil, List.append_nil, decodeRecord, if_pos rfl]
      simp only [Option.getD_some, keepCount_two_pow]
      exact wordBytes_lineValue data hb
    · have hrecs : chunkRecs k data =
          ⟨lineValue (data.take k).reverse, some 0, false⟩ :: chunkRecs k (data.drop k) := by
        conv_lhs => unfold chunkRecs
        rw [if_neg hk0, if_neg hd, if_neg hle]
      have hdl : (data.drop k).length = data.length - k := List.length_drop k data
      have hdne : data.drop k ≠ [] := by
        rw [← List.length_pos, hdl]; omega
      have htk : (data.take k).length = k := by
        rw [List.length_take]; omega
      rw [hrecs]
      simp only [decodeLog, List.map_cons, List.flatten_cons]
      have hfirst : decodeRecord k ⟨lineValue (data.take k).reverse, some 0, false⟩ =
          data.take k := by
        simp only [decodeRecord, if_neg (by simp : ¬ (false = true))]
        have hwb := wordBytes_lineValue (data.take k)
          (fun x hx => hb x (List.take_subset k data hx))
        rw [htk] at hwb
        exact hwb
      rw [hfirst]
      have hrest := ih (data.length - k) (by omega) (data.drop k) hdl hdne
        (fun x hx => hb x (List.drop_subset k data hx))
      simp only [decodeLog] at hrest
      rw [hrest, List.take_append_drop]

/-- The slicing loop emits nothing once the bit string is exhausted. -/
theorem sliceAux_nil (W fuel : Nat) : sliceAux W fuel [] = [] := by
  cases fuel <;> rfl

/-- Slice count: one record per started chunk of `W` bits. -/
theorem sliceAux_length {W : Nat} (hW : 0 < W) :
    ∀ (fuel : Nat) (bits : List Nat), bits.length ≤ fuel → bits ≠ [] →
      (sliceAux W fuel bits).length = (bits.length + W - 1) / W := by
  intro fuel
  induction fuel with
  | zero =>
    intro bits h1 h2
    exact absurd (List.length_eq_zero.mp (by omega)) h2
  | succ fuel ih =>
    intro bits h1 h2
    obtain ⟨b, bs, rfl⟩ : ∃ b bs, bits = b :: bs := by
      cases bits with
      | nil => exact absurd rfl h2
      | cons b bs => exact ⟨b, bs, rfl⟩
    simp only [sliceAux, List.length_cons]
    by_cases hrest : (b :: bs).drop W = []
    · have hlen : (b :: bs).length ≤ W := List.drop_eq_nil_iff.mp hrest
      rw [hrest, sliceAux_nil]
      have hb2 : bs.length + 1 ≤ W := by simpa using hlen
      simp only [List.length_nil, Nat.zero_add]
      refine (Nat.div_eq_of_lt_le ?_ ?_).symm <;> omega
    · have hgt : W < (b :: bs).length := by
        by_contra h
        push_neg at h
        exact hrest (List.drop_eq_nil_iff.mpr h)
      rw [ih ((b :: bs).drop W) (by rw [List.length_drop]; simp at h1 ⊢; omega) hrest,
          List.length_drop]
      exact (ceilDiv_step hW hgt).symm

/-- Bound for the packed value of a binary digit string. -/
theorem bitsToNat_lt_aux :
    ∀ (l : List Nat) (acc : Nat), (∀ b ∈ l, b < 2) →
      List.foldl (fun a b => a * 2 + b) acc l < (acc + 1) * 2 ^ l.length := by
  intro l
  induction l with
  | nil => intro acc _; simp
  | cons b l ih =>
    intro acc hb
    have hb2 : b < 2 := hb b (by simp)
    simp only [List.foldl_cons, List.length_cons]
    calc List.foldl (fun a b => a * 2 + b) (acc * 2 + b) l
        < (acc * 2 + b + 1) * 2 ^ l.length :=
          ih (acc * 2 + b) (fun x hx => hb x (by simp [hx]))
      _ ≤ (2 * (acc + 1)) * 2 ^ l.length := Nat.mul_le_mul_right _ (by omega)
      _ = (acc + 1) * 2 ^ (l.length + 1) := by rw [pow_succ]; ring

/-- A `W`-bit chunk packs to a value below `2 ^ W` (and in general a
chunk of `n` binary digits packs below `2 ^ n`). -/
theorem bitsToNat_lt {l : List Nat} (hb : ∀ b ∈ l, b < 2) :
    bitsToNat l < 2 ^ l.length := by
  have := bitsToNat_lt_aux l 0 hb
  simpa [bitsToNat] using this

/-- The slicing loop always ends in a `last = true` record whose word is
the packed value of the trailing chunk of bits. -/
theorem sliceAux_last {W : Nat} (hW : 0 < W) :
    ∀ (fuel : Nat) (bits : List Nat), bits.length ≤ fuel → bits ≠ [] →
      ∃ front lastRec,
        (sliceAux W fuel bits).map Prod.fst = front ++ [lastRec] ∧
        lastRec.word = bitsToNat (bits.drop (W * ((bits.length - 1) / W))) ∧
        lastRec.last = true ∧ lastRec.keep = none := by
  intro fuel
  induction fuel with
  | zero =>
    intro bits h1 h2
    exact absurd (List.length_eq_zero.mp (by omega)) h2
  | succ fuel ih =>
    intro bits h1 h2
    obtain ⟨b, bs, rfl⟩ : ∃ b bs, bits = b :: bs := by
      cases bits with
      | nil => exact absurd rfl h2
      | cons b bs => exact ⟨b, bs, rfl⟩
    simp only [sliceAux]
    by_cases hrest : (b :: bs).drop W = []
    · have hlen : (b :: bs).length ≤ W := List.drop_eq_nil_iff.mp hrest
      refine ⟨[], ⟨bitsToNat ((b :: bs).take W), none, ((b :: bs).drop W).isEmpty⟩,
        ?_, ?_, ?_, rfl⟩
      · rw [hrest, sliceAux_nil]
        simp
      · have hq : ((b :: bs).length - 1) / W = 0 := Nat.div_eq_of_lt (by omega)
        rw [hq, Nat.mul_zero, List.drop_zero, List.take_of_length_le hlen]
      · rw [hrest]
        rfl
    · have hgt : W < (b :: bs).length := by
        by_contra h
        push_neg at h
        exact hrest (List.drop_eq_nil_iff.mpr h)
      obtain ⟨front, lastRec, hmap, hword, hlast, hkeep⟩ :=
        ih ((b :: bs).drop W) (by rw [List.length_drop]; simp at h1 ⊢; omega) hrest
      refine ⟨⟨bitsToNat ((b :: bs).take W), none, ((b :: bs).drop W).isEmpty⟩ :: front,
        lastRec, ?_, ?_, hlast, hkeep⟩
      · simp [hmap]
      · rw [hword]
        have hq : ((b :: bs).length - 1) / W = (((b :: bs).drop W).length - 1) / W + 1 := by
          rw [List.length_drop]
          have hs := Nat.div_eq_sub_div hW (show W ≤ (b :: bs).length - 1 by omega)
          rw [hs]
          congr 2
          omega
        rw [hq, Nat.mul_add, Nat.mul_one, List.drop_drop, Nat.add_comm W]

/-- Digits of `bin` are binary digits. -/
theorem natBitsAux_lt_two : ∀ (fuel n : Nat), ∀ b ∈ natBitsAux fuel n, b < 2 := by
  intro fuel
  induction fuel with
  | zero => intro n b hb; simp [natBitsAux] at hb
  | succ fuel ih =>
    intro n b hb
    by_cases hn : n = 0
    · simp [natBitsAux, hn] at hb
    · simp only [natBitsAux, if_neg hn, List.mem_append, List.mem_singleton] at hb
      rcases hb with h | h
      · exact ih (n / 2) b h
      · omega

/-- `bin(n)` has at most `c` digits when `n < 2 ^ c`. -/
theorem natBitsAux_length_le :
    ∀ (fuel n c : Nat), n ≤ fuel → n < 2 ^ c → (natBitsAux fuel n).length ≤ c := by
  intro fuel
  induction fuel with
  | zero =>
    intro n c h1 _
    have : n = 0 := by omega
    simp [this, natBitsAux]
  | succ fuel ih =>
    intro n c h1 h2
    by_cases hn : n = 0
    · simp [natBitsAux, hn]
    · simp only [natBitsAux, if_neg hn, List.length_append, List.length_singleton]
      have hc : c ≠ 0 := by
        intro h
        rw [h] at h2
        simp at h2
        omega
      obtain ⟨c1, rfl⟩ : ∃ c1, c = c1 + 1 := ⟨c - 1, by omega⟩
      have hpow : 2 ^ (c1 + 1) = 2 * 2 ^ c1 := by rw [pow_succ]; ring
      have h2d : n / 2 < 2 ^ c1 := by omega
      have := ih (n / 2) c1 (by omega) h2d
      omega

/-- Each byte contributes exactly 8 bit positions to the flattened
string. -/
theorem byteContribution_length {b : Nat} (hb : b < 256) :
    (byteContribution b).length = 8 := by
  unfold byteContribution pyBinBits
  by_cases h0 : b = 0
  · simp [h0]
  · rw [if_neg h0]
    simp only [List.length_append, List.length_reverse, List.length_replicate]
    have h256 : b < 2 ^ 8 := by norm_num; omega
    have := natBitsAux_length_le b b 8 (le_refl b) h256
    omega

/-- The flattening fold as a concatenation of per-byte contributions. -/
theorem flattenBits_eq_flatMap (data : List Nat) :
    flattenBits data = (data.map byteContribution).flatten := by
  have aux : ∀ (l : List Nat) (acc : List Nat),
      l.foldl (fun acc byte => acc ++ byteContribution byte) acc =
        acc ++ (l.map byteContribution).flatten := by
    intro l
    induction l with
    | nil => intro acc; simp
    | cons b rest ih => intro acc; simp [ih, List.append_assoc]
  unfold flattenBits
  rw [aux]
  simp

/-- The flattened bit string has `8 * len` positions. -/
theorem flattenBits_length :
    ∀ (data : List Nat), (∀ b ∈ data, b < 256) →
      (flattenBits data).length = 8 * data.length := by
  intro data
  induction data with
  | nil => intro _; simp [flattenBits]
  | cons b rest ih =>
    intro hb
    rw [flattenBits_eq_flatMap] at ih ⊢
    simp only [List.map_cons, List.flatten_cons, List.length_append,
      byteContribution_length (hb b (by simp)), List.length_cons]
    rw [ih (fun x hx => hb x (by simp [hx]))]
    ring

/-- All elements of a byte contribution are binary digits. -/
theorem byteContribution_bits_lt {byte : Nat} : ∀ b ∈ byteContribution byte, b < 2 := by
  intro b hb
  unfold byteContribution at hb
  rcases List.mem_append.mp hb with h | h
  · rw [List.mem_reverse] at h
    unfold pyBinBits at h
    by_cases h0 : byte = 0
    · rw [if_pos h0] at h
      simp at h
      omega
    · rw [if_neg h0] at h
      exact natBitsAux_lt_two byte byte b h
  · rw [List.mem_replicate] at h
    omega

/-- All elements of the flattened bit string are binary digits. -/
theorem flattenBits_bits_lt {data : List Nat} : ∀ b ∈ flattenBits data, b < 2 := by
  intro b hb
  rw [flattenBits_eq_flatMap, List.mem_flatten] at hb
  obtain ⟨c, hc, hbc⟩ := hb
  rw [List.mem_map] at hc
  obtain ⟨byte, _, rfl⟩ := hc
  exact byteContribution_bits_lt b hbc

/-- Bridge between Python-style defaulted indexing and optional
indexing when the index is in range. -/
theorem getD_some_of_lt (l : List String) (i : Nat) (h : i < l.length) :
    some (l.getD i "") = l[i]? := by
  rw [List.getElem?_eq_getElem h]
  congr 1
  rw [List.getD_eq_getD_get? l "" i, List.get?_eq_getElem?, List.getElem?_eq_getElem h]
  rfl

/-- C1: the claim that `single_mismatch` keeps lines [0,7), inserts a
duplicate of line 7 immediately before line 7, appends the rest from
line 7 on, and yields one more line than the base, is false: at a
9-line base log the derivation replaces line 7 by a copy of line 8 and
keeps the line count unchanged. -/
theorem c1_single_mismatch_counterexample :
    ¬ (singleMismatch ["l0", "l1", "l2", "l3", "l4", "l5", "l6", "l7", "l8"] =
         (["l0", "l1", "l2", "l3", "l4", "l5", "l6", "l7", "l8"] : List String).take 7 ++
           [(["l0", "l1", "l2", "l3", "l4", "l5", "l6", "l7", "l8"] : List String).getD 7 ""] ++
           (["l0", "l1", "l2", "l3", "l4", "l5", "l6", "l7", "l8"] : List String).drop 7 ∧
       (singleMismatch ["l0", "l1", "l2", "l3", "l4", "l5", "l6", "l7", "l8"]).length =
         (["l0", "l1", "l2", "l3", "l4", "l5", "l6", "l7", "l8"] : List String).length + 1) := by
  decide

/-- C1 (amended): for a base log of at least 9 lines, `single_mismatch`
keeps lines [0,7) unchanged, drops line 7, places a duplicate of line 8
at position 7 (so line 8 appears at positions 7 and 8), keeps lines
from 8 on unchanged, and the output has exactly as many lines as the
base. -/
theorem c1_single_mismatch_amended (l : List String) (h : 9 ≤ l.length) :
    (singleMismatch l).length = l.length ∧
    (singleMismatch l).take 7 = l.take 7 ∧
    (singleMismatch l)[7]? = l[8]? ∧
    (singleMismatch l).drop 8 = l.drop 8 := by
  have h7 : (l.take 7).length = 7 := by rw [List.length_take]; omega
  unfold singleMismatch
  simp only [List.append_assoc, List.singleton_append]
  refine ⟨?_, ?_, ?_, ?_⟩
  · simp only [List.length_append, List.length_take, List.length_drop,
      List.length_cons, List.length_nil]
    omega
  · rw [List.take_append_of_le_length (by rw [h7])]
    simp [List.take_take]
  · rw [List.getElem?_append_right (by rw [h7])]
    rw [show (7 : Nat) - (l.take 7).length = 0 by rw [h7]]
    rw [List.getElem?_cons_zero]
    exact getD_some_of_lt l 8 (by omega)
  · rw [List.drop_append_eq_append_drop]
    rw [List.drop_eq_nil_of_le (by rw [h7]; omega)]
    rw [show (8 : Nat) - (l.take 7).length = 1 by rw [h7]]
    rw [List.nil_append, List.drop_succ_cons, List.drop_zero]

/-- C1 witness. -/
theorem c1_single_mismatch_amended_witness :
    (singleMismatch ["a", "b", "c", "d", "e", "f", "g", "h", "i", "j"]).length =
        (["a", "b", "c", "d", "e", "f", "g", "h", "i", "j"] : List String).length ∧
    (singleMismatch ["a", "b", "c", "d", "e", "f", "g", "h", "i", "j"]).take 7 =
        (["a", "b", "c", "d", "e", "f", "g", "h", "i", "j"] : List String).take 7 ∧
    (singleMismatch ["a", "b", "c", "d", "e", "f", "g", "h", "i", "j"])[7]? =
        (["a", "b", "c", "d", "e", "f", "g", "h", "i", "j"] : List String)[8]? ∧
    (singleMismatch ["a", "b", "c", "d", "e", "f", "g", "h", "i", "j"]).drop 8 =
        (["a", "b", "c", "d", "e", "f", "g", "h", "i", "j"] : List String).drop 8 :=
  c1_single_mismatch_amended ["a", "b", "c", "d", "e", "f", "g", "h", "i", "j"] (by decide)

/-- C2: the codec output is a function of the byte sequence and data
width alone — identical inputs give byte-identical raw and reference
files. -/
theorem c2_generation_deterministic (S1 S2 : List Nat) (W1 W2 : Nat)
    (hS : S1 = S2) (hW : W1 = W2) :
    generateAxiFileReaderTestFile S1 W1 = generateAxiFileReaderTestFile S2 W2 := by
  subst hS
  subst hW
  rfl

/-- C2 witness. -/
theorem c2_generation_deterministic_witness :
    generateAxiFileReaderTestFile [222, 173, 190] 8 =
      generateAxiFileReaderTestFile [222, 173, 190] 8 :=
  c2_generation_deterministic [222, 173, 190] [222, 173, 190] 8 8 rfl rfl

/-- C3: the claim that every complete window (including non-final ones)
emits `keep = (1 << W/8) - 1`, with example log `"01,1,0\n02,1,1\n"` for
bytes `[0x01, 0x02]` at width 8, is false: the source only assigns
`tkeep` on the last transfer, so the first (non-final) window of the
example carries keep `0` and the file reads `"01,0,0\n02,1,1\n"`. -/
theorem c3_keep_mask_counterexample :
    ¬ (refFileContent 8 [1, 2] = "01,1,0\n02,1,1\n") := by
  decide

/-- C3 (amended): for every byte-aligned width, every record before the
final one carries `keep_mask = 0`; only the final record carries the
all-ones mask `(1 << count) - 1`, where `count` is the number of bytes
of its (possibly partial) final window — `W / 8` when the byte count
divides evenly, `len(S) mod (W / 8)` otherwise — and the example bytes
`[0x01, 0x02]` at width 8 yield `"01,0,0\n02,1,1\n"`. -/
theorem c3_keep_mask_amended (W : Nat) (S : List Nat) (hW : W % 8 = 0) (h8 : 8 ≤ W) :
    (∀ r ∈ (encodeRecords W S).dropLast, r.keep = some 0) ∧
    (S ≠ [] →
      ∃ front lastRec, encodeRecords W S = front ++ [lastRec] ∧
        lastRec.keep =
          some (2 ^ (if S.length % (W / 8) = 0 then W / 8 else S.length % (W / 8)) - 1) ∧
        lastRec.last = true) ∧
    refFileContent 8 [1, 2] = "01,0,0\n02,1,1\n" := by
  obtain ⟨hWk, hkpos⟩ := width_decompose hW h8
  set k := W / 8 with hkdef
  refine ⟨?_, ?_, ?_⟩
  · intro r hr
    rw [hWk, encodeRecords_eq_chunkRecs hkpos] at hr
    exact chunkRecs_keep_init hkpos S.length S rfl r hr
  · intro hS
    rw [hWk, encodeRecords_eq_chunkRecs hkpos]
    exact chunkRecs_last_keep hkpos S.length S rfl hS
  · decide

/-- C3 witness. -/
theorem c3_keep_mask_amended_witness :
    (∀ r ∈ (encodeRecords 16 [1, 2, 3]).dropLast, r.keep = some 0) ∧
    (([1, 2, 3] : List Nat) ≠ [] →
      ∃ front lastRec, encodeRecords 16 [1, 2, 3] = front ++ [lastRec] ∧
        lastRec.keep =
          some (2 ^ (if ([1, 2, 3] : List Nat).length % (16 / 8) = 0 then 16 / 8
                     else ([1, 2, 3] : List Nat).length % (16 / 8)) - 1) ∧
        lastRec.last = true) ∧
    refFileContent 8 [1, 2] = "01,0,0\n02,1,1\n" :=
  c3_keep_mask_amended 16 [1, 2, 3] (by decide) (by decide)

/-- C4: the claim that `double_mismatch` duplicates lines 7 and 16 in
place and yields two more lines than the base is false: at an 18-line
base the derivation drops lines 7 and 16, duplicates lines 8 and 17,
and keeps the line count unchanged. -/
theorem c4_double_mismatch_counterexample :
    ¬ (doubleMismatch
         ["m0", "m1", "m2", "m3", "m4", "m5", "m6", "m7", "m8", "m9",
          "m10", "m11", "m12", "m13", "m14", "m15", "m16", "m17"] =
         (["m0", "m1", "m2", "m3", "m4", "m5", "m6", "m7", "m8", "m9",
           "m10", "m11", "m12", "m13", "m14", "m15", "m16", "m17"] : List String).take 7 ++
           [(["m0", "m1", "m2", "m3", "m4", "m5", "m6", "m7", "m8", "m9",
              "m10", "m11", "m12", "m13", "m14", "m15", "m16", "m17"] : List String).getD 7 ""] ++
           ((["m0", "m1", "m2", "m3", "m4", "m5", "m6", "m7", "m8", "m9",
              "m10", "m11", "m12", "m13", "m14", "m15", "m16", "m17"] : List String).drop 7).take 9 ++
           [(["m0", "m1", "m2", "m3", "m4", "m5", "m6", "m7", "m8", "m9",
              "m10", "m11", "m12", "m13", "m14", "m15", "m16", "m17"] : List String).getD 16 ""] ++
           (["m0", "m1", "m2", "m3", "m4", "m5", "m6", "m7", "m8", "m9",
             "m10", "m11", "m12", "m13", "m14", "m15", "m16", "m17"] : List String).drop 16 ∧
       (doubleMismatch
         ["m0", "m1", "m2", "m3", "m4", "m5", "m6", "m7", "m8", "m9",
          "m10", "m11", "m12", "m13", "m14", "m15", "m16", "m17"]).length =
         (["m0", "m1", "m2", "m3", "m4", "m5", "m6", "m7", "m8", "m9",
           "m10", "m11", "m12", "m13", "m14", "m15", "m16", "m17"] : List String).length + 2) := by
  decide

/-- C4 (amended): for a base log of at least 18 lines,
`double_mismatch` keeps lines [0,7) unchanged, places a duplicate of
line 8 at positions 7 and 8 (dropping line 7), keeps lines [9,16)
unchanged, places a duplicate of line 17 at positions 16 and 17
(dropping line 16), keeps the remaining lines, and the output has
exactly as many lines as the base. -/
theorem c4_double_mismatch_amended (l : List String) (h : 18 ≤ l.length) :
    (doubleMismatch l).length = l.length ∧
    (doubleMismatch l).take 7 = l.take 7 ∧
    (doubleMismatch l)[7]? = l[8]? ∧
    (doubleMismatch l)[8]? = l[8]? ∧
    ((doubleMismatch l).drop 9).take 7 = (l.drop 9).take 7 ∧
    (doubleMismatch l)[16]? = l[17]? ∧
    (doubleMismatch l).drop 17 = l.drop 17 := by
  have h7 : (l.take 7).length = 7 := by rw [List.length_take]; omega
  have hB : ((l.drop 9).take 7).length = 7 := by
    rw [List.length_take, List.length_drop]; omega
  unfold doubleMismatch
  simp only [List.append_assoc, List.cons_append, List.singleton_append, List.nil_append]
  refine ⟨?_, ?_, ?_, ?_, ?_, ?_, ?_⟩
  · simp only [List.length_append, List.length_take, List.length_drop,
      List.length_cons, List.length_nil]
    omega
  · rw [List.take_append_of_le_length (by rw [h7])]
    simp [List.take_take]
  · rw [List.getElem?_append_right (by rw [h7])]
    rw [show (7 : Nat) - (l.take 7).length = 0 by rw [h7]]
    rw [List.getElem?_cons_zero]
    exact getD_some_of_lt l 8 (by omega)
  · rw [List.getElem?_append_right (by rw [h7]; omega)]
    rw [show (8 : Nat) - (l.take 7).length = 1 by rw [h7]]
    rw [List.getElem?_cons_succ, List.getElem?_cons_zero]
    exact getD_some_of_lt l 8 (by omega)
  · rw [List.drop_append_eq_append_drop]
    rw [List.drop_eq_nil_of_le (by rw [h7]; omega)]
    rw [show (9 : Nat) - (l.take 7).length = 2 by rw [h7]]
    rw [List.nil_append, List.drop_succ_cons, List.drop_succ_cons, List.drop_zero]
    rw [List.take_append_of_le_length (by rw [hB])]
    simp [List.take_take]
  · rw [List.getElem?_append_right (by rw [h7]; omega)]
    rw [show (16 : Nat) - (l.take 7).length = 9 by rw [h7]]
    rw [List.getElem?_cons_succ, List.getElem?_cons_succ]
    rw [List.getElem?_append_right (by rw [hB])]
    rw [show (7 : Nat) - ((l.drop 9).take 7).length = 0 by rw [hB]]
    rw [List.getElem?_cons_zero]
    exact getD_some_of_lt l 17 (by omega)
  · rw [List.drop_append_eq_append_drop]
    rw [List.drop_eq_nil_of_le (by rw [h7]; omega)]
    rw [show (17 : Nat) - (l.take 7).length = 10 by rw [h7]]
    rw [List.nil_append, List.drop_succ_cons, List.drop_succ_cons]
    rw [List.drop_append_eq_append_drop]
    rw [List.drop_eq_nil_of_le (by rw [hB]; omega)]
    rw [show (8 : Nat) - ((l.drop 9).take 7).length = 1 by rw [hB]]
    rw [List.nil_append, List.drop_succ_cons, List.drop_zero]

/-- C4 witness. -/
theorem c4_double_mismatch_amended_witness :
    (doubleMismatch
        ["a", "b", "c", "d", "e", "f", "g", "h", "i", "j",
         "k", "l", "m", "n", "o", "p", "q", "r"]).length =
      (["a", "b", "c", "d", "e", "f", "g", "h", "i", "j",
        "k", "l", "m", "n", "o", "p", "q", "r"] : List String).length ∧
    (doubleMismatch
        ["a", "b", "c", "d", "e", "f", "g", "h", "i", "j",
         "k", "l", "m", "n", "o", "p", "q", "r"]).take 7 =
      (["a", "b", "c", "d", "e", "f", "g", "h", "i", "j",
        "k", "l", "m", "n", "o", "p", "q", "r"] : List String).take 7 ∧
    (doubleMismatch
        ["a", "b", "c", "d", "e", "f", "g", "h", "i", "j",
         "k", "l", "m", "n", "o", "p", "q", "r"])[7]? =
      (["a", "b", "c", "d", "e", "f", "g", "h", "i", "j",
        "k", "l", "m", "n", "o", "p", "q", "r"] : List String)[8]? ∧
    (doubleMismatch
        ["a", "b", "c", "d", "e", "f", "g", "h", "i", "j",
         "k", "l", "m", "n", "o", "p", "q", "r"])[8]? =
      (["a", "b", "c", "d", "e", "f", "g", "h", "i", "j",
        "k", "l", "m", "n", "o", "p", "q", "r"] : List String)[8]? ∧
    ((doubleMismatch
        ["a", "b", "c", "d", "e", "f", "g", "h", "i", "j",
         "k", "l", "m", "n", "o", "p", "q", "r"]).drop 9).take 7 =
      ((["a", "b", "c", "d", "e", "f", "g", "h", "i", "j",
         "k", "l", "m", "n", "o", "p", "q", "r"] : List String).drop 9).take 7 ∧
    (doubleMismatch
        ["a", "b", "c", "d", "e", "f", "g", "h", "i", "j",
         "k", "l", "m", "n", "o", "p", "q", "r"])[16]? =
      (["a", "b", "c", "d", "e", "f", "g", "h", "i", "j",
        "k", "l", "m", "n", "o", "p", "q", "r"] : List String)[17]? ∧
    (doubleMismatch
        ["a", "b", "c", "d", "e", "f", "g", "h", "i", "j",
         "k", "l", "m", "n", "o", "p", "q", "r"]).drop 17 =
      (["a", "b", "c", "d", "e", "f", "g", "h", "i", "j",
        "k", "l", "m", "n", "o", "p", "q", "r"] : List String).drop 17 :=
  c4_double_mismatch_amended
    ["a", "b", "c", "d", "e", "f", "g", "h", "i", "j",
     "k", "l", "m", "n", "o", "p", "q", "r"] (by decide)

/-- C5: byte-aligned round trip — decoding the reference log produced
for a non-empty byte sequence at a width that is a positive multiple of
8 (unpacking each word least-significant byte first and trimming the
final word by its keep mask) reconstructs the byte sequence exactly. -/
theorem c5_round_trip (S : List Nat) (W : Nat) (hS : S ≠ [])
    (hbytes : ∀ b ∈ S, b < 256) (hW : W % 8 = 0) (h8 : 8 ≤ W) :
    decodeLog (W / 8) (encodeRecords W S) = S := by
  obtain ⟨hWk, hkpos⟩ := width_decompose hW h8
  set k := W / 8 with hkdef
  rw [hWk, encodeRecords_eq_chunkRecs hkpos]
  exact chunkRecs_roundTrip hkpos S.length S rfl hS hbytes

/-- C5 witness. -/
theorem c5_round_trip_witness :
    decodeLog (16 / 8) (encodeRecords 16 [1, 2, 3]) = [1, 2, 3] :=
  c5_round_trip [1, 2, 3] 16 (by decide) (by decide) (by decide) (by decide)

/-- C6: for a non-empty byte sequence and byte-aligned width, the
encoder emits exactly `ceil(len(S) * 8 / W)` records, and `last = true`
appears exactly once, on the final record. -/
theorem c6_record_count (S : List Nat) (W : Nat) (hS : S ≠ [])
    (hW : W % 8 = 0) (h8 : 8 ≤ W) :
    (encodeRecords W S).length = (S.length * 8 + W - 1) / W ∧
    (encodeRecords W S).map TransferRecord.last =
      List.replicate ((encodeRecords W S).length - 1) false ++ [true] := by
  obtain ⟨hWk, hkpos⟩ := width_decompose hW h8
  set k := W / 8 with hkdef
  rw [hWk]
  constructor
  · rw [encodeRecords_eq_chunkRecs hkpos, chunkRecs_length hkpos S.length S rfl hS,
        ceilDiv_scale8 hkpos]
  · rw [encodeRecords_eq_chunkRecs hkpos]
    exact chunkRecs_lastFlags hkpos S.length S rfl hS

/-- C6 witness. -/
theorem c6_record_count_witness :
    (encodeRecords 16 [1, 2, 3]).length =
      (([1, 2, 3] : List Nat).length * 8 + 16 - 1) / 16 ∧
    (encodeRecords 16 [1, 2, 3]).map TransferRecord.last =
      List.replicate ((encodeRecords 16 [1, 2, 3]).length - 1) false ++ [true] :=
  c6_record_count [1, 2, 3] 16 (by decide) (by decide) (by decide)

/-- C7: the tool's default seed is drawn with `randint(-1 << 31, 1 << 31)`
whose upper endpoint is inclusive, so the value `2 ^ 31` is a possible
seed — outside the signed 32-bit range `[-2^31, 2^31 - 1]` the claim
(and the source's own "VHDL integer range" comment) assert. -/
theorem c7_default_seed_exceeds_int32 :
    defaultSeedPossible (2 ^ 31) ∧ ¬ claimedSeedRange (2 ^ 31) := by
  unfold defaultSeedPossible claimedSeedRange defaultSeedLo defaultSeedHi
  norm_num

/-- C8: encoding the single byte `0x01` at `data_width = 1` yields
exactly 8 records with word sequence 1,0,0,0,0,0,0,0 (LSB first),
`last = true` on the final record only, and an empty keep field on
every record and rendered line. -/
theorem c8_sub_byte_example :
    encodeRecords 1 [1] =
      [⟨1, none, false⟩, ⟨0, none, false⟩, ⟨0, none, false⟩, ⟨0, none, false⟩,
       ⟨0, none, false⟩, ⟨0, none, false⟩, ⟨0, none, false⟩, ⟨0, none, true⟩] ∧
    refLines 1 [1] = ["1,,0", "0,,0", "0,,0", "0,,0", "0,,0", "0,,0", "0,,0", "0,,1"] :=
  ⟨rfl, rfl⟩

/-- C9: in the width-converter configuration set, every configuration
other than the explicit `same_widths` baseline has a strictly smaller
output width than input width, and the `(32, 32)` baseline appears
exactly once. -/
theorem c9_width_converter_filter :
    axiWidthConverterConfigs.count (32, 32) = 1 ∧
    ∀ cfg ∈ axiWidthConverterConfigs.tail, cfg.2 < cfg.1 := by
  decide

/-- C10: for a sub-byte width, the encoder emits exactly
`ceil(8 * len(S) / W)` records, and when `8 * len(S)` is not a multiple
of `W` the final record's word is the packed value of only the
remaining `(8 * len(S)) mod W` bits — not zero-padded to `W` bits — so
it is strictly below `2 ^ ((8 * len(S)) mod W)`. -/
theorem c10_sub_byte_ragged (S : List Nat) (W : Nat) (hS : S ≠ [])
    (hbytes : ∀ b ∈ S, b < 256) (hW1 : 1 ≤ W) (hW8 : W < 8) :
    (encodeRecords W S).length = (8 * S.length + W - 1) / W ∧
    (8 * S.length % W ≠ 0 →
      ∃ front lastRec,
        encodeRecords W S = front ++ [lastRec] ∧
        lastRec.word = bitsToNat ((flattenBits S).drop (W * ((8 * S.length - 1) / W))) ∧
        lastRec.word < 2 ^ (8 * S.length % W)) := by
  have hWpos : 0 < W := hW1
  have hnot8 : ¬ 8 ≤ W := by omega
  have hflen : (flattenBits S).length = 8 * S.length := flattenBits_length S hbytes
  have hfne : flattenBits S ≠ [] := by
    intro hnil
    apply hS
    have h0 : (flattenBits S).length = 0 := by rw [hnil]; rfl
    rw [hflen] at h0
    exact List.length_eq_zero.mp (by omega)
  constructor
  · unfold encodeRecords refPairs sliceBits
    rw [if_neg hnot8, List.length_map,
        sliceAux_length hWpos (flattenBits S).length (flattenBits S) (le_refl _) hfne,
        hflen]
  · intro hrag
    obtain ⟨front, lastRec, hmap, hword, _, _⟩ :=
      sliceAux_last hWpos (flattenBits S).length (flattenBits S) (le_refl _) hfne
    have hchunk : ((flattenBits S).drop (W * (((flattenBits S).length - 1) / W))).length
        = 8 * S.length % W := by
      rw [List.length_drop, hflen]
      set L := 8 * S.length with hLdef
      have hLpos : 0 < L := by
        have : 0 < S.length := List.length_pos.mpr hS
        omega
      have hdm := Nat.div_add_mod L W
      set q := L / W with hqdef
      set r := L % W with hrdef
      have hrW : r < W := Nat.mod_lt _ hWpos
      obtain ⟨P, hP⟩ : ∃ P, W * q = P := ⟨_, rfl⟩
      rw [hP] at hdm
      have e1 : q * W = P := by rw [← hP]; ring
      have e2 : (q + 1) * W = P + W := by rw [← hP]; ring
      have hq1 : (L - 1) / W = q := by
        refine Nat.div_eq_of_lt_le ?_ ?_
        · rw [e1]; omega
        · rw [e2]; omega
      rw [hq1, hP]
      omega
    refine ⟨front, lastRec, ?_, ?_, ?_⟩
    · unfold encodeRecords refPairs sliceBits
      rw [if_neg hnot8]
      exact hmap
    · rw [hword, hflen]
    · rw [hword]
      have hsub : ∀ b ∈ (flattenBits S).drop (W * (((flattenBits S).length - 1) / W)), b < 2 :=
        fun b hb => flattenBits_bits_lt b (List.drop_subset _ _ hb)
      have hlt := bitsToNat_lt hsub
      rw [hchunk] at hlt
      exact hlt

/-- C10 witness: one byte at width 3 gives 8 bits in chunks 3 + 3 + 2;
the ragged final chunk packs 2 bits. -/
theorem c10_sub_byte_ragged_witness :
    (encodeRecords 3 [171]).length = (8 * ([171] : List Nat).length + 3 - 1) / 3 ∧
    (8 * ([171] : List Nat).length % 3 ≠ 0 →
      ∃ front lastRec,
        encodeRecords 3 [171] = front ++ [lastRec] ∧
        lastRec.word =
          bitsToNat ((flattenBits [171]).drop (3 * ((8 * ([171] : List Nat).length - 1) / 3))) ∧
        lastRec.word < 2 ^ (8 * ([171] : List Nat).length % 3)) :=
  c10_sub_byte_ragged [171] 3 (by decide) (by decide) (by decide) (by decide)
